import Mathlib

set_option linter.unusedSectionVars false

/-!
Verification of the `tilecsp` CSP engine (`cspbase.py`).

The Python classes `Variable`, `Constraint` and `CSP` are shallowly embedded
as Lean structures with pure state-passing operations.  Python values stored
in domains are modelled by a type parameter `V` with decidable equality.
Python identity of `Variable` objects (used as dictionary keys by the
`Constraint` support index and by `CSP.vars_to_cons`) is modelled by natural
number identifiers; the mutable per-object state lives in a store
`Nat → Variable V` where it matters (constraint validity queries).

Operations that Python reports as failed — either by printing an error
message and returning without mutating (`assign`, `unassign`, `add_var`,
`add_constraint`) or by raising (`list.index` / indexing out of range) —
are modelled as returning the (unchanged so far) state together with an
`Option CSPErr` signal.
-/

namespace TileCSP

/-- The error kinds named by the specification, plus `IndexError` for a raw
Python indexing fault (`scope[i]` with `i` out of range). -/
inductive CSPErr where
  | InvalidAssignment
  | InvalidUnassignment
  | ValueNotInDomain
  | DuplicateVariable
  | UnknownVariableInScope
  | ScopeArityMismatch
  | IndexError
deriving DecidableEq, Repr

/-- Embedding of `class Variable`: permanent domain `dom`, current-domain
mask `curdom` (one flag per domain position) and the optional
`assignedValue`. -/
structure Variable (V : Type) where
  name : String
  dom : List V
  curdom : List Bool
  assignedValue : Option V
deriving DecidableEq, Repr

variable {V : Type} [DecidableEq V]

namespace Variable

/-- Python `Variable(name, domain)`: copy the domain, set every mask flag true. -/
def mkVar (name : String) (domain : List V) : Variable V :=
  ⟨name, domain, List.replicate domain.length true, none⟩

/-- Python `add_domain_values`: append each value to `dom` and a `True` flag to
`curdom`. -/
def add_domain_values (v : Variable V) (values : List V) : Variable V :=
  { v with dom := v.dom ++ values,
           curdom := v.curdom ++ List.replicate values.length true }

/-- Python `domain_size`. -/
def domain_size (v : Variable V) : Nat := v.dom.length

/-- Python `domain`. -/
def domain (v : Variable V) : List V := v.dom

/-- Python `value_index` on a domain list: Python `list.index`, returning the first
index holding `val`, or an error (`ValueError`) when absent — modelled by
`Option`. -/
def value_index (dom : List V) (val : V) : Option Nat :=
  match dom with
  | [] => none
  | x :: xs => if x = val then some 0 else (value_index xs val).map (· + 1)

/-- Python `prune_value`: set the mask flag at `value_index` false; a value absent
from the permanent domain raises (`ValueNotInDomain`). -/
def prune_value (v : Variable V) (value : V) : Variable V × Option CSPErr :=
  match value_index v.dom value with
  | some i => ({ v with curdom := v.curdom.set i false }, none)
  | none => (v, some .ValueNotInDomain)

/-- Python `unprune_value`: set the mask flag at `value_index` true. -/
def unprune_value (v : Variable V) (value : V) : Variable V × Option CSPErr :=
  match value_index v.dom value with
  | some i => ({ v with curdom := v.curdom.set i true }, none)
  | none => (v, some .ValueNotInDomain)

/-- Python `is_assigned`. -/
def is_assigned (v : Variable V) : Bool := v.assignedValue.isSome

/-- Python `get_assigned_value`. -/
def get_assigned_value (v : Variable V) : Option V := v.assignedValue

/-- The unassigned branch of `cur_domain`: values whose positional mask flag
is true (Python iterates `enumerate(self.dom)` reading `self.curdom[i]`;
the two lists always have equal length in reachable states). -/
def curFilter : List V → List Bool → List V
  | [], _ => []
  | _ :: _, [] => []
  | x :: xs, b :: bs => if b then x :: curFilter xs bs else curFilter xs bs

/-- Python `cur_domain`: the single assigned value when assigned, else the
mask-filtered domain. -/
def cur_domain (v : Variable V) : List V :=
  match v.assignedValue with
  | some a => [a]
  | none => curFilter v.dom v.curdom

/-- Python `in_cur_domain`: false for values outside the permanent domain;
equality with the assigned value when assigned; else the mask flag at the
first index of `value` in `dom`. -/
def in_cur_domain (v : Variable V) (value : V) : Bool :=
  if value ∈ v.dom then
    match v.assignedValue with
    | some a => value = a
    | none =>
      match value_index v.dom value with
      | some i => v.curdom.getD i false
      | none => false
  else false

/-- Python `cur_domain_size`: 1 when assigned, else the count of true mask flags. -/
def cur_domain_size (v : Variable V) : Nat :=
  if v.is_assigned then 1 else (v.curdom.filter id).length

/-- Python `restore_curdom`: every mask flag back to true. -/
def restore_curdom (v : Variable V) : Variable V :=
  { v with curdom := v.curdom.map (fun _ => true) }

/-- Python `assign`: rejected (message printed, no mutation) when already assigned
or when the value fails `in_cur_domain`; otherwise only the assignment
field is set. -/
def assign (v : Variable V) (value : V) : Variable V × Option CSPErr :=
  if v.is_assigned || !(v.in_cur_domain value) then
    (v, some .InvalidAssignment)
  else
    ({ v with assignedValue := some value }, none)

/-- Python `unassign`: rejected when not assigned; otherwise only the assignment
field is cleared. -/
def unassign (v : Variable V) : Variable V × Option CSPErr :=
  if !v.is_assigned then
    (v, some .InvalidUnassignment)
  else
    ({ v with assignedValue := none }, none)

end Variable

/-- The heap of `Variable` objects, indexed by identity. -/
abbrev Store (V : Type) := Nat → Variable V

/-- Functional update of the store at one variable identifier. -/
def updStore (store : Store V) (x : Nat) (w : Variable V) : Store V :=
  fun y => if y = x then w else store y

/-- Python `enumerate`, starting at `n`. -/
def enumList (n : Nat) : List α → List (Nat × α)
  | [] => []
  | a :: as => (n, a) :: enumList (n + 1) as

/-- The `sup_tuples` dictionary: insertion-ordered association list from a
(variable identity, value) key to the list of supporting tuples. -/
abbrev SupMap (V : Type) := List ((Nat × V) × List (List V))

/-- Dictionary lookup on `sup_tuples` (first matching key). -/
def supLookup (m : SupMap V) (k : Nat × V) : Option (List (List V)) :=
  match m with
  | [] => none
  | (k', ts) :: rest => if k' = k then some ts else supLookup rest k

/-- Lookup defaulting to the empty list for an absent key. -/
def supLookupD (m : SupMap V) (k : Nat × V) : List (List V) :=
  (supLookup m k).getD []

/-- Python `if not (var,val) in self.sup_tuples: self.sup_tuples[(var,val)] = []`
followed by `self.sup_tuples[(var,val)].append(t)`. -/
def supInsert (m : SupMap V) (k : Nat × V) (t : List V) : SupMap V :=
  match m with
  | [] => [(k, [t])]
  | (k', ts) :: rest =>
    if k' = k then (k', ts ++ [t]) :: rest else (k', ts) :: supInsert rest k t

/-- Embedding of `class Constraint`: the ordered scope (variable
identities), the satisfying-tuple table (`dict` keys, insertion ordered,
every stored value `True`) and the support index. -/
structure Constraint (V : Type) where
  name : String
  scope : List Nat
  sat_tuples : List (List V)
  sup_tuples : SupMap V
deriving DecidableEq, Repr

namespace Constraint

/-- Python `Constraint(name, scope)`. -/
def mkConstraint (name : String) (scope : List Nat) : Constraint V :=
  ⟨name, scope, [], []⟩

/-- The inner loop of `add_satisfying_tuples`:
`for i, val in enumerate(t): var = self.scope[i]; ... append`.
`self.scope[i]` with `i` out of range raises, aborting the loop with the
appends made so far kept — modelled by the `Option CSPErr` component. -/
def addSups (t : List V) (scope : List Nat) :
    SupMap V → List (Nat × V) → SupMap V × Option CSPErr
  | m, [] => (m, none)
  | m, (i, val) :: rest =>
    match scope.get? i with
    | some var => addSups t scope (supInsert m (var, val) t) rest
    | none => (m, some .IndexError)

/-- One iteration of the `for x in tuples` loop of `add_satisfying_tuples`:
insert `t` into `sat_tuples` when absent, then append `t` to the support
entry of every position of `t` (unconditionally — this runs even when `t`
was already present). -/
def addTuple (c : Constraint V) (t : List V) : Constraint V × Option CSPErr :=
  let sat := if t ∈ c.sat_tuples then c.sat_tuples else c.sat_tuples ++ [t]
  let se := addSups t c.scope c.sup_tuples (enumList 0 t)
  ({ c with sat_tuples := sat, sup_tuples := se.1 }, se.2)

/-- Python `add_satisfying_tuples(tuples)`: the tuple loop; a raised index fault
aborts the remaining iterations. -/
def add_satisfying_tuples (c : Constraint V) :
    List (List V) → Constraint V × Option CSPErr
  | [] => (c, none)
  | t :: ts =>
    match addTuple c t with
    | (c', none) => add_satisfying_tuples c' ts
    | (c', some e) => (c', some e)

/-- Any sequence of `add_satisfying_tuples` calls. -/
def addCalls (c : Constraint V) : List (List (List V)) → Constraint V
  | [] => c
  | ts :: rest => addCalls (add_satisfying_tuples c ts).1 rest

/-- Python `check(vals)`: membership of the value sequence in `sat_tuples`. -/
def check (c : Constraint V) (vals : List V) : Bool :=
  vals ∈ c.sat_tuples

/-- Python `get_scope`. -/
def get_scope (c : Constraint V) : List Nat := c.scope

/-- Python `get_n_unasgn`. -/
def get_n_unasgn (store : Store V) (c : Constraint V) : Nat :=
  (c.scope.filter (fun x => !(store x).is_assigned)).length

/-- Python `get_unasgn_vars`. -/
def get_unasgn_vars (store : Store V) (c : Constraint V) : List Nat :=
  c.scope.filter (fun x => !(store x).is_assigned)

/-- The loop of `tuple_is_valid` over `enumerate(self.scope)`: `t[i]` with
`i` out of range raises (`none`); an out-of-current-domain value returns
`False` at once. -/
def tvAux (store : Store V) (t : List V) : List (Nat × Nat) → Option Bool
  | [] => some true
  | (i, var) :: rest =>
    match t.get? i with
    | none => none
    | some a =>
      if (store var).in_cur_domain a then tvAux store t rest else some false

/-- Python `tuple_is_valid(t)`: every positional value of `t` still in the
corresponding scope variable's current domain. -/
def tuple_is_valid (store : Store V) (c : Constraint V) (t : List V) :
    Option Bool :=
  tvAux store t (enumList 0 c.scope)

/-- The loop of `has_support` over the indexed tuples: first valid tuple
wins; a raised index fault propagates (`none`). -/
def hsAux (store : Store V) (c : Constraint V) : List (List V) → Option Bool
  | [] => some false
  | t :: ts =>
    match tuple_is_valid store c t with
    | none => none
    | some true => some true
    | some false => hsAux store c ts

/-- Python `has_support(var, val)`: scan only the tuples indexed under
`(var, val)`; an absent key yields `False`. -/
def has_support (store : Store V) (c : Constraint V) (x : Nat) (v : V) :
    Option Bool :=
  match supLookup c.sup_tuples (x, v) with
  | none => some false
  | some ts => hsAux store c ts

/-- Validity of a tuple spelt as a whole-scope scan: every positional value
of `t` is still in the corresponding scope variable's current domain. -/
def validB (store : Store V) (c : Constraint V) (t : List V) : Bool :=
  (enumList 0 c.scope).all fun p =>
    match t.get? p.1 with
    | some a => (store p.2).in_cur_domain a
    | none => false

/-- The brute-force scan the specification demands `has_support` agree
with: some tuple of the full `sat_tuples` table assigns `v` to `x` at some
scope position and has every positional value still in the corresponding
scope variable's current domain. -/
def bruteForceHasSupport (store : Store V) (c : Constraint V) (x : Nat)
    (v : V) : Bool :=
  c.sat_tuples.any fun t =>
    ((enumList 0 c.scope).any fun p =>
      decide (p.2 = x) && decide (t.get? p.1 = some v)) &&
    validB store c t

/-- Representation invariant of a `Constraint` populated through
`add_satisfying_tuples` with scope-length tuples: all stored tuples have
scope length, and the support index holds exactly the stored tuples that
assign the key's value to the key's variable at some scope position. -/
def GoodCon (c : Constraint V) : Prop :=
  (∀ t ∈ c.sat_tuples, t.length = c.scope.length) ∧
  (∀ (x : Nat) (v : V) (t : List V),
    t ∈ supLookupD c.sup_tuples (x, v) ↔
      (t ∈ c.sat_tuples ∧ ∃ i, c.scope.get? i = some x ∧ t.get? i = some v))

end Constraint

/-- The `vars_to_cons` dictionary: insertion-ordered association list from
a variable identity to the list of constraints indexed under it. -/
abbrev ConMap (V : Type) := List (Nat × List (Constraint V))

/-- Key membership (`v in self.vars_to_cons`). -/
def conHasKey (m : ConMap V) (v : Nat) : Bool :=
  match m with
  | [] => false
  | (k, _) :: rest => if k = v then true else conHasKey rest v

/-- Dictionary lookup on `vars_to_cons` (first matching key). -/
def conLookup (m : ConMap V) (v : Nat) : Option (List (Constraint V)) :=
  match m with
  | [] => none
  | (k, cs) :: rest => if k = v then some cs else conLookup rest v

/-- Lookup defaulting to the empty list for an absent key. -/
def conLookupD (m : ConMap V) (v : Nat) : List (Constraint V) :=
  (conLookup m v).getD []

/-- Python `self.vars_to_cons[v].append(c)` (the key is always present when the
code reaches this statement). -/
def conAppend (m : ConMap V) (v : Nat) (c : Constraint V) : ConMap V :=
  match m with
  | [] => []
  | (k, cs) :: rest =>
    if k = v then (k, cs ++ [c]) :: rest else (k, cs) :: conAppend rest v c

/-- Embedding of `class CSP`: the variable list, the constraint list, and
the derived `vars_to_cons` index. -/
structure CSPState (V : Type) where
  name : String
  vars : List Nat
  cons : List (Constraint V)
  vars_to_cons : ConMap V
deriving DecidableEq, Repr

namespace CSPState

/-- Python `CSP(name)` with no initial variables (initial variables are delivered
through `add_var`). -/
def initCSP (name : String) : CSPState V := ⟨name, [], [], []⟩

/-- Python `add_var(v)`: rejected (message printed, no mutation) for a variable
already registered; otherwise append to `vars` and create its empty index
entry. -/
def add_var (s : CSPState V) (v : Nat) : CSPState V × Option CSPErr :=
  if conHasKey s.vars_to_cons v then (s, some .DuplicateVariable)
  else
    ({ s with vars := s.vars ++ [v],
              vars_to_cons := s.vars_to_cons ++ [(v, [])] }, none)

/-- The scope loop of `add_constraint`: each registered scope variable's
index entry receives `c` *before* the next variable is checked; the first
unregistered variable aborts the call. -/
def addConLoop (c : Constraint V) :
    ConMap V → List Nat → ConMap V × Bool
  | m, [] => (m, true)
  | m, v :: rest =>
    if conHasKey m v then addConLoop c (conAppend m v c) rest
    else (m, false)

/-- Python `add_constraint(c)`: on an unregistered scope variable the call is
rejected (message printed, `cons` untouched, index appends already made
kept); on success `c` is appended to `cons`. -/
def add_constraint (s : CSPState V) (c : Constraint V) :
    CSPState V × Option CSPErr :=
  match addConLoop c s.vars_to_cons c.scope with
  | (m, true) => ({ s with cons := s.cons ++ [c], vars_to_cons := m }, none)
  | (m, false) =>
    ({ s with vars_to_cons := m }, some .UnknownVariableInScope)

/-- Python `get_all_cons`. -/
def get_all_cons (s : CSPState V) : List (Constraint V) := s.cons

/-- Python `get_cons_with_var(var)`. -/
def get_cons_with_var (s : CSPState V) (v : Nat) : List (Constraint V) :=
  conLookupD s.vars_to_cons v

/-- Python `get_all_vars`. -/
def get_all_vars (s : CSPState V) : List Nat := s.vars

end CSPState

/-- Representation invariant of a `CSP` whose every `add_constraint` call
succeeded: every indexed constraint's scope is registered, and each
registered variable's index entry holds exactly the constraints of `cons`
whose scope contains it. -/
def InvC (s : CSPState V) : Prop :=
  (∀ c ∈ s.cons, ∀ x ∈ c.scope, conHasKey s.vars_to_cons x = true) ∧
  (∀ v, conHasKey s.vars_to_cons v = true →
    ∀ c, c ∈ conLookupD s.vars_to_cons v ↔ (c ∈ s.cons ∧ v ∈ c.scope))

/-- One structural operation on a CSP. -/
inductive CSPOp (V : Type) where
  | addVar (v : Nat)
  | addCon (c : Constraint V)

/-- Apply one operation. -/
def applyOp (s : CSPState V) : CSPOp V → CSPState V × Option CSPErr
  | .addVar v => s.add_var v
  | .addCon c => s.add_constraint c

/-- Run a sequence of operations (rejected calls mutate exactly as the code
does and the run continues). -/
def runOps (s : CSPState V) : List (CSPOp V) → CSPState V
  | [] => s
  | op :: ops => runOps (applyOp s op).1 ops

/-- Run a sequence of operations, also reporting whether every
`add_constraint` call succeeded. -/
def runOpsOk (s : CSPState V) : List (CSPOp V) → CSPState V × Bool
  | [] => (s, true)
  | op :: ops =>
    let se := applyOp s op
    let bad : Bool := match op, se.2 with
      | .addCon _, some _ => true
      | _, _ => false
    let r := runOpsOk se.1 ops
    (r.1, !bad && r.2)

/-- First `some` produced by `f` along the list (the value-trial loop of
the search driver: try each value in order, moving on when a branch
fails). -/
def firstSome (f : α → Option β) : List α → Option β
  | [] => none
  | a :: as =>
    match f a with
    | some r => some r
    | none => firstSome f as

/-- Modelled from the spec: the three propagation variants of §4.4 (the
propagator and search-driver modules are not part of `src/`). -/
inductive PropVariant where
  | plainBT
  | forwardChecking
  | gacProp
deriving DecidableEq, Repr

/-- Modelled from the spec: the configurable variable-ordering policies of
§4.5 — minimum current-domain size with ties broken by registration order
(the default), or plain registration order. -/
inductive OrderingPolicy where
  | minDomFirst
  | registrationOrder
deriving DecidableEq, Repr

/-- The registered variables currently lacking an assignment. -/
def unassignedVars (vars : List Nat) (store : Store V) : List Nat :=
  vars.filter fun x => !(store x).is_assigned

/-- Modelled from the spec: select the next variable by the ordering
policy; `none` exactly when every variable is assigned. -/
def selectVar (policy : OrderingPolicy) (vars : List Nat)
    (store : Store V) : Option Nat :=
  match policy, unassignedVars vars store with
  | _, [] => none
  | .registrationOrder, x :: _ => some x
  | .minDomFirst, x :: rest =>
    some (rest.foldl
      (fun best y =>
        if (store y).cur_domain_size < (store best).cur_domain_size then y
        else best) x)

/-- The assigned values of a scope, in scope order; `none` when some scope
variable is unassigned. -/
def assignedVals (store : Store V) : List Nat → Option (List V)
  | [] => some []
  | x :: xs =>
    match (store x).assignedValue, assignedVals store xs with
    | some v, some vs => some (v :: vs)
    | _, _ => none

/-- A constraint holds of the current full assignment: its scope is fully
assigned and `check` accepts the assigned value sequence. -/
def consSatisfiedB (store : Store V) (c : Constraint V) : Bool :=
  match assignedVals store c.scope with
  | some vals => c.check vals
  | none => false

/-- Every constraint holds of the current full assignment. -/
def consAllSatisfied (store : Store V) (cons : List (Constraint V)) : Bool :=
  cons.all (consSatisfiedB store)

/-- Modelled from the spec (§4.4, forward checking): a satisfying tuple is
compatible with the fixed assignments of a constraint and with value `v`
for its single unassigned variable `u`. -/
def fcTupleConsistent (store : Store V) (c : Constraint V) (u : Nat) (v : V)
    (t : List V) : Bool :=
  decide (t.length = c.scope.length) &&
  ((enumList 0 c.scope).all fun p =>
    match (store p.2).assignedValue with
    | some a => decide (t.get? p.1 = some a)
    | none => if p.2 = u then decide (t.get? p.1 = some v) else true)

/-- Prune a list of values from one variable (each through
`Variable.prune_value`). -/
def pruneValues (w : Variable V) (vals : List V) : Variable V :=
  vals.foldl (fun w v => (w.prune_value v).1) w

/-- Modelled from the spec (§4.4, forward checking): for a constraint with
exactly one remaining unassigned variable, remove from that variable's
current domain every value lacking a compatible satisfying tuple; fail when
its domain empties. -/
def fcStep (store : Store V) (c : Constraint V) : Store V × Bool :=
  match Constraint.get_unasgn_vars store c with
  | [u] =>
    let toPrune := ((store u).cur_domain).filter fun v =>
      !(c.sat_tuples.any (fcTupleConsistent store c u v))
    let w := pruneValues (store u) toPrune
    (updStore store u w, decide (0 < w.cur_domain_size))
  | _ => (store, true)

/-- Modelled from the spec (§4.4, forward checking): one pass over every
constraint, stopping at the first domain wipeout. -/
def fcPropagate (store : Store V) : List (Constraint V) → Store V × Bool
  | [] => (store, true)
  | c :: rest =>
    match fcStep store c with
    | (s', true) => fcPropagate s' rest
    | (s', false) => (s', false)

/-- Modelled from the spec (§4.4, GAC): remove from variable `y` every
value lacking support in constraint `c`; also report whether anything was
removed. -/
def gacRevise (store : Store V) (c : Constraint V) (y : Nat) :
    Store V × Bool :=
  let toPrune := ((store y).cur_domain).filter fun v =>
    !(decide (c.has_support store y v = some true))
  (updStore store y (pruneValues (store y) toPrune), !toPrune.isEmpty)

/-- Modelled from the spec (§4.4, GAC): revise every listed variable of one
constraint, collecting the variables whose domain shrank (to be
re-enqueued) and failing on a domain wipeout. -/
def gacScopeLoop (c : Constraint V) :
    Store V → List Nat → Store V × List Nat × Bool
  | store, [] => (store, [], true)
  | store, y :: ys =>
    match gacRevise store c y with
    | (s', pruned) =>
      if (s' y).cur_domain_size = 0 then (s', [], false)
      else
        match gacScopeLoop c s' ys with
        | (s'', qs, ok) => (s'', (if pruned then [y] else []) ++ qs, ok)

/-- Modelled from the spec (§4.4, GAC): for every constraint referencing
the popped variable `x`, revise every other unassigned variable of its
scope. -/
def gacConsLoop (x : Nat) :
    Store V → List (Constraint V) → Store V × List Nat × Bool
  | store, [] => (store, [], true)
  | store, c :: rest =>
    if x ∈ c.scope then
      match gacScopeLoop c store
          (c.scope.filter fun y => !decide (y = x) && !(store y).is_assigned) with
      | (s', qs, true) =>
        match gacConsLoop x s' rest with
        | (s'', qs', ok) => (s'', qs ++ qs', ok)
      | (s', _, false) => (s', [], false)
    else gacConsLoop x store rest

/-- Modelled from the spec (§4.4, GAC): the propagation queue, iterated to
a fixpoint or a wipeout.  The fuel argument only bounds the iteration (in
the spec the loop terminates because a variable is re-enqueued only after
its domain strictly shrank). -/
def gacQueueLoop (cons : List (Constraint V)) :
    Nat → Store V → List Nat → Store V × Bool
  | 0, store, _ => (store, true)
  | _ + 1, store, [] => (store, true)
  | fuel + 1, store, x :: qs =>
    match gacConsLoop x store cons with
    | (s', newQ, true) => gacQueueLoop cons fuel s' (qs ++ newQ)
    | (s', _, false) => (s', false)

/-- Fuel ample for the GAC fixpoint iteration. -/
def gacFuel (store : Store V) (cons : List (Constraint V)) : Nat :=
  (1 + cons.foldl (fun n c => n + c.scope.length) 0) *
  (1 + cons.foldl
    (fun n c => n + c.scope.foldl (fun m y => m + (store y).dom.length) 0) 0)

/-- Modelled from the spec: dispatch on the propagator variant after the
assignment of variable `x`; plain backtracking prunes nothing and always
reports success. -/
def propagate (variant : PropVariant) (store : Store V)
    (cons : List (Constraint V)) (x : Nat) : Store V × Bool :=
  match variant with
  | .plainBT => (store, true)
  | .forwardChecking => fcPropagate store cons
  | .gacProp => gacQueueLoop cons (gacFuel store cons) store [x]

/-- Modelled from the spec (§4.5): the recursive backtracking driver.  When
every variable is assigned the driver emits the assignment as a solution
provided it satisfies every constraint (§6: a Solution satisfies every
constraint of the CSP); otherwise it selects a variable, tries each value
of its current domain in order (assign, propagate, recurse), and reports
failure when every value is exhausted.  Undo is implicit: a failed branch
resumes from the unmodified caller store. -/
def btSearch (variant : PropVariant) (policy : OrderingPolicy)
    (vars : List Nat) (cons : List (Constraint V)) :
    Nat → Store V → Option (Store V)
  | 0, _ => none
  | fuel + 1, store =>
    match selectVar policy vars store with
    | none => if consAllSatisfied store cons then some store else none
    | some x =>
      firstSome
        (fun v =>
          let store1 := updStore store x ((store x).assign v).1
          match propagate variant store1 cons x with
          | (store2, true) => btSearch variant policy vars cons fuel store2
          | (_, false) => none)
        ((store x).cur_domain)

/-- Modelled from the spec: the assembled CSP handed to `solve`. -/
structure SolveCSP (V : Type) where
  name : String
  vars : List Nat
  store : Store V
  cons : List (Constraint V)

/-- Modelled from the spec (§6): `Solution | Unsatisfiable`, the solution
being a mapping from each variable to its assigned value. -/
inductive SolveResult (V : Type) where
  | solution (assignment : List (Nat × V))
  | unsatisfiable
deriving DecidableEq, Repr

/-- The assignment mapping read off a final store. -/
def extractSolution (vars : List Nat) (store : Store V) : List (Nat × V) :=
  vars.filterMap fun x => ((store x).assignedValue).map fun v => (x, v)

/-- Value of a variable under a solution mapping. -/
def solutionValue (m : List (Nat × V)) (x : Nat) : Option V :=
  match m with
  | [] => none
  | (y, v) :: rest => if y = x then some v else solutionValue rest x

/-- Values of a scope under a solution mapping, in scope order. -/
def solutionVals (m : List (Nat × V)) : List Nat → Option (List V)
  | [] => some []
  | x :: xs =>
    match solutionValue m x, solutionVals m xs with
    | some v, some vs => some (v :: vs)
    | _, _ => none

/-- Modelled from the spec (§6):
`solve(csp, propagator_variant, ordering_policy) -> Solution | Unsatisfiable`. -/
def solve (csp : SolveCSP V) (variant : PropVariant)
    (policy : OrderingPolicy) : SolveResult V :=
  match btSearch variant policy csp.vars csp.cons (csp.vars.length + 1)
      csp.store with
  | some store => .solution (extractSolution csp.vars store)
  | none => .unsatisfiable

/-! ## Soundness of the modelled search driver (claim C2) -/

omit [DecidableEq V] in
theorem firstSome_eq_some {α β : Type} {f : α → Option β} {l : List α}
    {b : β} (h : firstSome f l = some b) : ∃ a ∈ l, f a = some b := by
  induction l with
  | nil => simp [firstSome] at h
  | cons a as ih =>
    rw [show firstSome f (a :: as) =
      (match f a with
       | some r => some r
       | none => firstSome f as) from rfl] at h
    cases hf : f a with
    | some r =>
      rw [hf] at h
      injection h with hr
      exact ⟨a, List.mem_cons_self _ _, by rw [hf, hr]⟩
    | none =>
      rw [hf] at h
      obtain ⟨a', ha', hfa⟩ := ih h
      exact ⟨a', List.mem_cons_of_mem _ ha', hfa⟩

theorem selectVar_none {policy : OrderingPolicy} {vars : List Nat}
    {store : Store V} (h : selectVar policy vars store = none) :
    ∀ x ∈ vars, (store x).is_assigned = true := by
  intro x hx
  cases hu : unassignedVars vars store with
  | nil =>
    have := List.filter_eq_nil_iff.mp hu x hx
    simpa using this
  | cons y ys =>
    exfalso
    cases policy with
    | minDomFirst =>
      unfold selectVar at h
      rw [hu] at h
      simp at h
    | registrationOrder =>
      unfold selectVar at h
      rw [hu] at h
      simp at h

theorem btSearch_sound (variant : PropVariant) (policy : OrderingPolicy)
    (vars : List Nat) (cons : List (Constraint V)) (fuel : Nat)
    (store s : Store V)
    (h : btSearch variant policy vars cons fuel store = some s) :
    selectVar policy vars s = none ∧ consAllSatisfied s cons = true := by
  induction fuel generalizing store with
  | zero => simp [btSearch] at h
  | succ fuel ih =>
    rw [show btSearch variant policy vars cons (fuel + 1) store =
      (match selectVar policy vars store with
       | none => if consAllSatisfied store cons then some store else none
       | some x =>
         firstSome
           (fun v =>
             let store1 := updStore store x ((store x).assign v).1
             match propagate variant store1 cons x with
             | (store2, true) => btSearch variant policy vars cons fuel store2
             | (_, false) => none)
           ((store x).cur_domain)) from rfl] at h
    cases hsel : selectVar policy vars store with
    | none =>
      rw [hsel] at h
      by_cases hcs : consAllSatisfied store cons
      · rw [if_pos hcs] at h
        injection h with hst
        subst hst
        exact ⟨hsel, hcs⟩
      · rw [if_neg hcs] at h
        cases h
    | some x =>
      rw [hsel] at h
      obtain ⟨v, -, hfv⟩ := firstSome_eq_some h
      simp only [] at hfv
      rcases hp : propagate variant
          (updStore store x ((store x).assign v).1) cons x with ⟨store2, ok⟩
      rw [hp] at hfv
      cases ok with
      | true => exact ih store2 hfv
      | false => cases hfv

theorem mem_extractSolution (vars : List Nat) (store : Store V) (x : Nat)
    (w : V) (hx : x ∈ vars) (hw : (store x).assignedValue = some w) :
    (x, w) ∈ extractSolution vars store :=
  List.mem_filterMap.mpr ⟨x, hx, by rw [hw]; rfl⟩

theorem solutionValue_extract (vars : List Nat) (store : Store V)
    (hall : ∀ y ∈ vars, (store y).is_assigned = true) (x : Nat)
    (hx : x ∈ vars) :
    solutionValue (extractSolution vars store) x
      = (store x).assignedValue := by
  induction vars with
  | nil => cases hx
  | cons y ys ih =>
    have hy := hall y (List.mem_cons_self _ _)
    obtain ⟨w, hw⟩ := Option.isSome_iff_exists.mp hy
    simp only [extractSolution, List.filterMap_cons, hw, Option.map_some']
    by_cases hxy : y = x
    · subst hxy
      rw [hw]
      simp [solutionValue]
    · simp only [solutionValue, if_neg hxy]
      have hx' : x ∈ ys := by
        rcases List.mem_cons.mp hx with rfl | h'
        · exact absurd rfl hxy
        · exact h'
      have := ih (fun z hz => hall z (List.mem_cons_of_mem _ hz)) hx'
      simpa [extractSolution] using this

theorem solutionVals_eq_assignedVals (vars scope : List Nat)
    (store : Store V)
    (hall : ∀ y ∈ vars, (store y).is_assigned = true)
    (hsub : ∀ x ∈ scope, x ∈ vars) :
    solutionVals (extractSolution vars store) scope
      = assignedVals store scope := by
  induction scope with
  | nil => rfl
  | cons x xs ih =>
    simp only [solutionVals, assignedVals]
    rw [solutionValue_extract vars store hall x
      (hsub x (List.mem_cons_self _ _))]
    rw [ih (fun z hz => hsub z (List.mem_cons_of_mem _ hz))]

/-- C2: the modelled `solve` never emits a partial assignment — whenever it
returns a Solution, the mapping assigns a value to every variable of the
CSP and the assignment satisfies every constraint; its only other outcome
is Unsatisfiable.  (The scope hypothesis is the CSP construction invariant:
every constraint was registered after its scope variables.) -/
theorem c2_solve_sound (csp : SolveCSP V) (variant : PropVariant)
    (policy : OrderingPolicy) (m : List (Nat × V))
    (hscope : ∀ c ∈ csp.cons, ∀ x ∈ c.scope, x ∈ csp.vars)
    (h : solve csp variant policy = SolveResult.solution m) :
    (∀ x ∈ csp.vars, ∃ w, (x, w) ∈ m) ∧
    (∀ c ∈ csp.cons, ∃ vals, solutionVals m c.scope = some vals ∧
      c.check vals = true) := by
  unfold solve at h
  cases hbt : btSearch variant policy csp.vars csp.cons
      (csp.vars.length + 1) csp.store with
  | none =>
    rw [hbt] at h
    cases h
  | some st =>
    rw [hbt] at h
    injection h with hm
    subst hm
    obtain ⟨hsel, hsat⟩ := btSearch_sound variant policy csp.vars csp.cons
      (csp.vars.length + 1) csp.store st hbt
    have hall := selectVar_none hsel
    constructor
    · intro x hx
      obtain ⟨w, hw⟩ := Option.isSome_iff_exists.mp (hall x hx)
      exact ⟨w, mem_extractSolution _ _ x w hx hw⟩
    · intro c hc
      have hcsat := List.all_eq_true.mp hsat c hc
      unfold consSatisfiedB at hcsat
      cases hav : assignedVals st c.scope with
      | none =>
        rw [hav] at hcsat
        cases hcsat
      | some vals =>
        rw [hav] at hcsat
        refine ⟨vals, ?_, hcsat⟩
        rw [solutionVals_eq_assignedVals csp.vars c.scope st hall
          (hscope c hc), hav]

/-- Witness for C2: a one-variable CSP with a unary constraint, solved with
plain backtracking under registration order. -/
theorem c2_witness :
    (∀ x ∈ [0], ∃ w, (x, w) ∈ [(0, 1)]) ∧
    (∀ c ∈ [(⟨"c0", [0], [[1]], []⟩ : Constraint Nat)],
      ∃ vals, solutionVals [(0, 1)] c.scope = some vals ∧
        c.check vals = true) :=
  c2_solve_sound
    ⟨"w", [0], fun _ => Variable.mkVar "v0" [1], [⟨"c0", [0], [[1]], []⟩]⟩
    PropVariant.plainBT OrderingPolicy.registrationOrder [(0, 1)]
    (by decide) (by decide)

/-! ## Lemmas about `Variable` -/

namespace Variable

theorem value_index_eq_none_iff (dom : List V) (val : V) :
    value_index dom val = none ↔ val ∉ dom := by
  induction dom with
  | nil => simp [value_index]
  | cons x xs ih =>
    by_cases hx : x = val
    · subst hx
      simp [value_index]
    · simp only [value_index, if_neg hx, Option.map_eq_none', ih,
        List.mem_cons]
      constructor
      · intro h hv
        rcases hv with hv | hv
        · exact hx hv.symm
        · exact h hv
      · intro h hv
        exact h (Or.inr hv)

theorem value_index_get? (dom : List V) (val : V) (i : Nat)
    (h : value_index dom val = some i) : dom.get? i = some val := by
  induction dom generalizing i with
  | nil => simp [value_index] at h
  | cons x xs ih =>
    by_cases hx : x = val
    · subst hx
      simp [value_index] at h
      subst h
      rfl
    · simp only [value_index, if_neg hx, Option.map_eq_some'] at h
      obtain ⟨j, hj, rfl⟩ := h
      simpa using ih j hj

theorem value_index_of_get? {dom : List V} {val : V} {i : Nat}
    (hnd : dom.Nodup) (hg : dom.get? i = some val) :
    value_index dom val = some i := by
  induction dom generalizing i with
  | nil => simp at hg
  | cons x xs ih =>
    rcases List.nodup_cons.mp hnd with ⟨hx, hxs⟩
    cases i with
    | zero =>
      simp at hg
      simp [value_index, hg]
    | succ j =>
      simp only [List.get?_cons_succ] at hg
      have hmem : val ∈ xs := List.get?_mem hg
      have hne : ¬x = val := fun h => hx (h ▸ hmem)
      simp [value_index, hne, ih hxs hg]

omit [DecidableEq V] in
theorem mem_curFilter {dom : List V} {cd : List Bool} {a : V} :
    a ∈ curFilter dom cd ↔
      ∃ i, dom.get? i = some a ∧ cd.get? i = some true := by
  induction dom generalizing cd with
  | nil =>
    simp [curFilter]
  | cons x xs ih =>
    cases cd with
    | nil =>
      simp [curFilter]
    | cons b bs =>
      cases b with
      | true =>
        rw [show curFilter (x :: xs) (true :: bs) = x :: curFilter xs bs
          from rfl]
        simp only [List.mem_cons, ih]
        constructor
        · rintro (rfl | ⟨i, h1, h2⟩)
          · exact ⟨0, rfl, rfl⟩
          · exact ⟨i + 1, h1, h2⟩
        · rintro ⟨i, h1, h2⟩
          cases i with
          | zero =>
            have hx : x = a := by simpa using h1
            exact Or.inl hx.symm
          | succ j => exact Or.inr ⟨j, h1, h2⟩
      | false =>
        rw [show curFilter (x :: xs) (false :: bs) = curFilter xs bs
          from rfl]
        rw [ih]
        constructor
        · rintro ⟨i, h1, h2⟩
          exact ⟨i + 1, h1, h2⟩
        · rintro ⟨i, h1, h2⟩
          cases i with
          | zero => exact absurd h2 (by simp)
          | succ j => exact ⟨j, h1, h2⟩

end Variable

/-! ## Generic list and index lemmas -/

theorem bool_eq_of_iff {a b : Bool} (h : a = true ↔ b = true) : a = b := by
  cases a <;> cases b <;> simp_all

theorem mem_enumList {l : List α} {n i : Nat} {a : α} :
    (i, a) ∈ enumList n l ↔ ∃ j, i = n + j ∧ l.get? j = some a := by
  induction l generalizing n with
  | nil => simp [enumList]
  | cons x xs ih =>
    simp only [enumList, List.mem_cons, ih, Prod.mk.injEq]
    constructor
    · rintro (⟨rfl, rfl⟩ | ⟨j, rfl, h2⟩)
      · exact ⟨0, by simp, rfl⟩
      · exact ⟨j + 1, by omega, h2⟩
    · rintro ⟨j, rfl, h2⟩
      cases j with
      | zero =>
        left
        have hx : x = a := by simpa using h2
        exact ⟨by simp, hx.symm⟩
      | succ k =>
        right
        exact ⟨k, by omega, h2⟩

theorem mem_enumList_zero {l : List α} {i : Nat} {a : α} :
    (i, a) ∈ enumList 0 l ↔ l.get? i = some a := by
  rw [mem_enumList]
  constructor
  · rintro ⟨j, rfl, h⟩
    simpa using h
  · intro h
    exact ⟨i, by simp, h⟩

theorem get?_isSome_of_lt {l : List α} {i : Nat} (h : i < l.length) :
    (l.get? i).isSome := by
  rw [List.get?_eq_get h]
  rfl

theorem lt_of_get?_eq_some {l : List α} {i : Nat} {a : α}
    (h : l.get? i = some a) : i < l.length := by
  rcases List.get?_eq_some.mp h with ⟨hl, _⟩
  exact hl

/-! ## Lemmas about the support index -/

theorem supLookup_supInsert (m : SupMap V) (k k' : Nat × V) (t : List V) :
    supLookup (supInsert m k t) k' =
      if k' = k then some (supLookupD m k ++ [t]) else supLookup m k' := by
  induction m with
  | nil =>
    by_cases h : k' = k
    · subst h
      simp [supInsert, supLookup, supLookupD]
    · simp [supInsert, supLookup, supLookupD, h, Ne.symm h]
  | cons hd rest ih =>
    obtain ⟨k2, ts⟩ := hd
    by_cases h1 : k2 = k
    · by_cases h2 : k' = k
      · have h3 : k2 = k' := h1.trans h2.symm
        simp [supInsert, supLookup, supLookupD, h1, h2, h3]
      · have h3 : ¬(k2 = k') := fun hh => h2 (hh.symm.trans h1)
        have h4 : ¬(k = k') := fun hh => h2 hh.symm
        simp [supInsert, supLookup, h1, h2, h3, h4]
    · by_cases h2 : k2 = k'
      · have h3 : ¬(k' = k) := fun hh => h1 (h2.trans hh)
        simp [supInsert, supLookup, h1, h2, h3]
      · simp [supInsert, supLookup, supLookupD, h1, h2, ih]

theorem supLookupD_supInsert (m : SupMap V) (k k' : Nat × V) (t : List V) :
    supLookupD (supInsert m k t) k' =
      if k' = k then supLookupD m k ++ [t] else supLookupD m k' := by
  unfold supLookupD
  rw [supLookup_supInsert]
  by_cases h : k' = k <;> simp [h, supLookupD]

theorem mem_supLookupD_supInsert {m : SupMap V} {k k' : Nat × V}
    {t t' : List V} :
    t' ∈ supLookupD (supInsert m k t) k' ↔
      t' ∈ supLookupD m k' ∨ (t' = t ∧ k' = k) := by
  rw [supLookupD_supInsert]
  by_cases h : k' = k
  · subst h
    simp
  · simp [h]

/-! ## Lemmas about `add_satisfying_tuples` -/

namespace Constraint

theorem addSups_ok (scope : List Nat) (t : List V) (L : List (Nat × V))
    (m : SupMap V) (hL : ∀ p ∈ L, (scope.get? p.1).isSome) :
    (addSups t scope m L).2 = none ∧
    ∀ k t', t' ∈ supLookupD (addSups t scope m L).1 k ↔
      (t' ∈ supLookupD m k ∨
        (t' = t ∧ ∃ p ∈ L, scope.get? p.1 = some k.1 ∧ p.2 = k.2)) := by
  induction L generalizing m with
  | nil => simp [addSups]
  | cons p rest ih =>
    obtain ⟨i, val⟩ := p
    have hp := hL (i, val) (List.mem_cons_self _ _)
    obtain ⟨var, hvar⟩ := Option.isSome_iff_exists.mp hp
    simp only [addSups, hvar]
    have ihr := ih (supInsert m (var, val) t)
      (fun q hq => hL q (List.mem_cons_of_mem _ hq))
    refine ⟨ihr.1, ?_⟩
    intro k t'
    rw [ihr.2 k t', mem_supLookupD_supInsert]
    simp only [List.mem_cons]
    constructor
    · rintro ((h | ⟨rfl, rfl⟩) | ⟨rfl, q, hq, hq1, hq2⟩)
      · exact Or.inl h
      · refine Or.inr ⟨rfl, (i, val), Or.inl rfl, ?_, rfl⟩
        simpa using hvar
      · exact Or.inr ⟨rfl, q, Or.inr hq, hq1, hq2⟩
    · rintro (h | ⟨rfl, q, (rfl | hq), hq1, hq2⟩)
      · exact Or.inl (Or.inl h)
      · left
        right
        refine ⟨rfl, ?_⟩
        rw [hvar] at hq1
        obtain rfl : var = k.1 := by simpa using hq1
        obtain ⟨k1, k2⟩ := k
        simpa using hq2.symm
      · exact Or.inr ⟨rfl, q, hq, hq1, hq2⟩

theorem addSups_err (scope : List Nat) (t : List V) (L : List (Nat × V))
    (m : SupMap V) (h : ∃ p ∈ L, scope.get? p.1 = none) :
    (addSups t scope m L).2 = some CSPErr.IndexError := by
  induction L generalizing m with
  | nil => simp at h
  | cons p rest ih =>
    obtain ⟨i, val⟩ := p
    cases hvar : scope.get? i with
    | none => simp only [addSups, hvar]
    | some var =>
      simp only [addSups, hvar]
      apply ih
      rcases h with ⟨q, hq, hqn⟩
      rcases List.mem_cons.mp hq with rfl | hq'
      · rw [hvar] at hqn
        simp at hqn
      · exact ⟨q, hq', hqn⟩

theorem addTuple_scope (c : Constraint V) (t : List V) :
    (c.addTuple t).1.scope = c.scope := rfl

theorem addTuple_sat (c : Constraint V) (t : List V) :
    (c.addTuple t).1.sat_tuples =
      if t ∈ c.sat_tuples then c.sat_tuples else c.sat_tuples ++ [t] := rfl

theorem addTuple_sup (c : Constraint V) (t : List V) :
    (c.addTuple t).1.sup_tuples =
      (addSups t c.scope c.sup_tuples (enumList 0 t)).1 := rfl

theorem addTuple_err (c : Constraint V) (t : List V) :
    (c.addTuple t).2 = (addSups t c.scope c.sup_tuples (enumList 0 t)).2 :=
  rfl

omit [DecidableEq V] in
theorem enumList_pos_ok {scope : List Nat} {t : List V}
    (h : t.length ≤ scope.length) :
    ∀ p ∈ enumList 0 t, (scope.get? p.1).isSome := by
  intro p hp
  obtain ⟨i, a⟩ := p
  have hep := mem_enumList_zero.mp hp
  have hi : i < t.length := lt_of_get?_eq_some hep
  exact get?_isSome_of_lt (by omega)

theorem addTuple_ok (c : Constraint V) (t : List V)
    (h : t.length ≤ c.scope.length) : (c.addTuple t).2 = none := by
  rw [addTuple_err]
  exact (addSups_ok c.scope t _ _ (enumList_pos_ok h)).1

theorem addTuple_mem_sat_iff (c : Constraint V) (t s : List V) :
    s ∈ (c.addTuple t).1.sat_tuples ↔ (s ∈ c.sat_tuples ∨ s = t) := by
  rw [addTuple_sat]
  by_cases hmem : t ∈ c.sat_tuples
  · rw [if_pos hmem]
    constructor
    · exact Or.inl
    · rintro (h | rfl)
      · exact h
      · exact hmem
  · rw [if_neg hmem]
    simp

theorem addTuple_goodCon (c : Constraint V) (t : List V) (hG : GoodCon c)
    (hlen : t.length = c.scope.length) : GoodCon (c.addTuple t).1 := by
  have hsups := addSups_ok c.scope t (enumList 0 t) c.sup_tuples
    (enumList_pos_ok (le_of_eq hlen))
  constructor
  · intro t' ht'
    rw [addTuple_scope]
    rcases (addTuple_mem_sat_iff c t t').mp ht' with h' | rfl
    · exact hG.1 t' h'
    · exact hlen
  · intro x v t'
    rw [addTuple_scope, addTuple_sup]
    rw [hsups.2 (x, v) t', hG.2 x v t']
    have henum : (∃ p ∈ enumList 0 t,
        c.scope.get? p.1 = some (x, v).1 ∧ p.2 = (x, v).2) ↔
        ∃ i, c.scope.get? i = some x ∧ t.get? i = some v := by
      constructor
      · rintro ⟨⟨i, a⟩, hp, h1, h2⟩
        refine ⟨i, h1, ?_⟩
        have := mem_enumList_zero.mp hp
        rw [show a = v from h2] at this
        exact this
      · rintro ⟨i, h1, h2⟩
        exact ⟨(i, v), mem_enumList_zero.mpr h2, h1, rfl⟩
    rw [henum]
    constructor
    · rintro (⟨hs, he⟩ | ⟨rfl, he⟩)
      · exact ⟨(addTuple_mem_sat_iff _ _ _).mpr (Or.inl hs), he⟩
      · exact ⟨(addTuple_mem_sat_iff _ _ _).mpr (Or.inr rfl), he⟩
    · rintro ⟨hs, he⟩
      rcases (addTuple_mem_sat_iff _ _ _).mp hs with hs' | rfl
      · exact Or.inl ⟨hs', he⟩
      · exact Or.inr ⟨rfl, he⟩

theorem goodCon_mk (name : String) (scope : List Nat) :
    GoodCon (mkConstraint name scope : Constraint V) := by
  constructor
  · intro t ht
    simp [mkConstraint] at ht
  · intro x v t
    simp [mkConstraint, supLookupD, supLookup]

theorem add_satisfying_tuples_single (c : Constraint V) (t : List V) :
    c.add_satisfying_tuples [t] = c.addTuple t := by
  rcases hat : c.addTuple t with ⟨c', e⟩
  cases e <;> simp [add_satisfying_tuples, hat]

theorem goodCon_add_satisfying_tuples (c : Constraint V)
    (ts : List (List V)) (hG : GoodCon c)
    (hlen : ∀ t ∈ ts, t.length = c.scope.length) :
    GoodCon (c.add_satisfying_tuples ts).1 ∧
      (c.add_satisfying_tuples ts).1.scope = c.scope := by
  induction ts generalizing c with
  | nil => exact ⟨hG, rfl⟩
  | cons t ts ih =>
    have ht := hlen t (List.mem_cons_self _ _)
    have hok : (c.addTuple t).2 = none := addTuple_ok _ _ (le_of_eq ht)
    rcases hat : c.addTuple t with ⟨c', e⟩
    rw [hat] at hok
    simp only at hok
    subst hok
    have hsc : c'.scope = c.scope := by
      have := addTuple_scope c t
      rw [hat] at this
      exact this
    have hG' : GoodCon c' := by
      have := addTuple_goodCon c t hG ht
      rw [hat] at this
      exact this
    have := ih c' hG'
      (fun t' ht' => hsc ▸ hlen t' (List.mem_cons_of_mem _ ht'))
    simp only [add_satisfying_tuples, hat]
    exact ⟨this.1, this.2.trans hsc⟩

theorem goodCon_addCalls (c : Constraint V)
    (batches : List (List (List V))) (hG : GoodCon c)
    (hlen : ∀ b ∈ batches, ∀ t ∈ b, t.length = c.scope.length) :
    GoodCon (c.addCalls batches) ∧ (c.addCalls batches).scope = c.scope := by
  induction batches generalizing c with
  | nil => exact ⟨hG, rfl⟩
  | cons b bs ih =>
    have h1 := goodCon_add_satisfying_tuples c b hG
      (hlen b (List.mem_cons_self _ _))
    have := ih (c.add_satisfying_tuples b).1 h1.1
      (fun b' hb' t ht => h1.2 ▸ hlen b' (List.mem_cons_of_mem _ hb') t ht)
    exact ⟨this.1, by rw [addCalls]; exact this.2.trans h1.2⟩

/-! ## Evaluation of `has_support` under the representation invariant -/

theorem tvAux_eval (store : Store V) (t : List V) (l : List (Nat × Nat))
    (hl : ∀ p ∈ l, (t.get? p.1).isSome) :
    tvAux store t l = some (l.all fun p =>
      match t.get? p.1 with
      | some a => (store p.2).in_cur_domain a
      | none => false) := by
  induction l with
  | nil => rfl
  | cons p rest ih
  =>
    obtain ⟨i, var⟩ := p
    obtain ⟨a, ha⟩ := Option.isSome_iff_exists.mp
      (hl (i, var) (List.mem_cons_self _ _))
    simp only [tvAux, ha, List.all_cons]
    by_cases hc : (store var).in_cur_domain a
    · simp [hc, ih (fun q hq => hl q (List.mem_cons_of_mem _ hq))]
    · simp [hc]

theorem tuple_is_valid_eval (store : Store V) (c : Constraint V)
    (t : List V) (hlen : t.length = c.scope.length) :
    tuple_is_valid store c t = some (validB store c t) := by
  unfold tuple_is_valid validB
  apply tvAux_eval
  intro p hp
  obtain ⟨i, var⟩ := p
  have hsc := mem_enumList_zero.mp hp
  have hi : i < c.scope.length := lt_of_get?_eq_some hsc
  exact get?_isSome_of_lt (by omega)

theorem hsAux_eval (store : Store V) (c : Constraint V)
    (ts : List (List V)) (h : ∀ t ∈ ts, t.length = c.scope.length) :
    hsAux store c ts = some (ts.any (validB store c)) := by
  induction ts with
  | nil => rfl
  | cons t ts ih =>
    rw [show hsAux store c (t :: ts) =
      (match tuple_is_valid store c t with
       | none => none
       | some true => some true
       | some false => hsAux store c ts) from rfl]
    rw [tuple_is_valid_eval store c t (h t (List.mem_cons_self _ _))]
    by_cases hv : validB store c t
    · simp [hv]
    · simp [hv, ih (fun t' ht' => h t' (List.mem_cons_of_mem _ ht'))]

theorem assignB_iff (scope : List Nat) (t : List V) (x : Nat) (v : V) :
    ((enumList 0 scope).any fun p =>
      decide (p.2 = x) && decide (t.get? p.1 = some v)) = true ↔
    ∃ i, scope.get? i = some x ∧ t.get? i = some v := by
  rw [List.any_eq_true]
  constructor
  · rintro ⟨⟨i, y⟩, hp, hcond⟩
    simp only [Bool.and_eq_true, decide_eq_true_eq] at hcond
    obtain ⟨rfl, h2⟩ := hcond
    exact ⟨i, mem_enumList_zero.mp hp, h2⟩
  · rintro ⟨i, h1, h2⟩
    refine ⟨(i, x), mem_enumList_zero.mpr h1, ?_⟩
    rw [List.get?_eq_getElem?] at h2
    simp [h2]

theorem has_support_eq_bruteForce (store : Store V) (c : Constraint V)
    (hG : GoodCon c) (x : Nat) (v : V) :
    c.has_support store x v = some (bruteForceHasSupport store c x v) := by
  have hb : bruteForceHasSupport store c x v =
      (supLookupD c.sup_tuples (x, v)).any (validB store c) := by
    apply bool_eq_of_iff
    unfold bruteForceHasSupport
    rw [List.any_eq_true, List.any_eq_true]
    constructor
    · rintro ⟨t, ht, hcond⟩
      rw [Bool.and_eq_true] at hcond
      obtain ⟨h1, h2⟩ := hcond
      refine ⟨t, ?_, h2⟩
      rw [hG.2]
      exact ⟨ht, (assignB_iff c.scope t x v).mp h1⟩
    · rintro ⟨t, ht, h2⟩
      rw [hG.2] at ht
      refine ⟨t, ht.1, ?_⟩
      rw [Bool.and_eq_true]
      exact ⟨(assignB_iff c.scope t x v).mpr ht.2, h2⟩
  cases hsl : supLookup c.sup_tuples (x, v) with
  | none =>
    have hde : supLookupD c.sup_tuples (x, v) = [] := by
      simp [supLookupD, hsl]
    rw [show c.has_support store x v =
      (match supLookup c.sup_tuples (x, v) with
       | none => some false
       | some ts => hsAux store c ts) from rfl]
    rw [hsl, hb, hde]
    rfl
  | some ts =>
    have hde : supLookupD c.sup_tuples (x, v) = ts := by
      simp [supLookupD, hsl]
    have hlens : ∀ t ∈ ts, t.length = c.scope.length := by
      intro t ht
      exact hG.1 t ((hG.2 x v t).mp (hde ▸ ht)).1
    rw [show c.has_support store x v =
      (match supLookup c.sup_tuples (x, v) with
       | none => some false
       | some ts => hsAux store c ts) from rfl]
    rw [hsl]
    show hsAux store c ts = some (bruteForceHasSupport store c x v)
    rw [hsAux_eval store c ts hlens, hb, hde]

end Constraint

/-! ## Lemmas about the CSP container -/

omit [DecidableEq V] in
theorem conHasKey_eq_isSome (m : ConMap V) (v : Nat) :
    conHasKey m v = (conLookup m v).isSome := by
  induction m with
  | nil => rfl
  | cons hd rest ih =>
    obtain ⟨k, cs⟩ := hd
    by_cases h : k = v <;> simp [conHasKey, conLookup, h, ih]

omit [DecidableEq V] in
theorem conLookup_conAppend (m : ConMap V) (v : Nat) (c : Constraint V)
    (y : Nat) :
    conLookup (conAppend m v c) y =
      if y = v then (conLookup m v).map (· ++ [c]) else conLookup m y := by
  induction m with
  | nil =>
    by_cases h : y = v <;> simp [conAppend, conLookup, h]
  | cons hd rest ih =>
    obtain ⟨k, cs⟩ := hd
    by_cases h1 : k = v
    · by_cases h2 : y = v
      · have h3 : k = y := h1.trans h2.symm
        simp [conAppend, conLookup, h1, h2, h3]
      · have h3 : ¬(k = y) := fun hh => h2 (hh.symm.trans h1)
        have h4 : ¬(v = y) := fun hh => h2 hh.symm
        simp [conAppend, conLookup, h1, h2, h3, h4]
    · by_cases h2 : k = y
      · have h3 : ¬(y = v) := fun hh => h1 (h2.trans hh)
        simp [conAppend, conLookup, h1, h2, h3]
      · simp [conAppend, conLookup, h1, h2, ih]

theorem conHasKey_conAppend (m : ConMap V) (v : Nat) (c : Constraint V)
    (y : Nat) : conHasKey (conAppend m v c) y = conHasKey m y := by
  rw [conHasKey_eq_isSome, conHasKey_eq_isSome, conLookup_conAppend]
  by_cases h : y = v
  · subst h
    cases conLookup m y <;> simp
  · simp [h]

theorem mem_conLookupD_conAppend {m : ConMap V} {v : Nat}
    {c d : Constraint V} {y : Nat} :
    d ∈ conLookupD (conAppend m v c) y ↔
      (d ∈ conLookupD m y ∨ (d = c ∧ y = v ∧ conHasKey m v = true)) := by
  unfold conLookupD
  rw [conLookup_conAppend]
  by_cases h : y = v
  · subst h
    cases hl : conLookup m y with
    | none => simp [conHasKey_eq_isSome, hl]
    | some cs => simp [conHasKey_eq_isSome, hl]
  · simp [h]

omit [DecidableEq V] in
theorem conHasKey_append_single (m : ConMap V) (v : Nat)
    (cs : List (Constraint V)) (y : Nat) :
    conHasKey (m ++ [(v, cs)]) y = (conHasKey m y || decide (v = y)) := by
  induction m with
  | nil => simp [conHasKey]
  | cons hd rest ih =>
    obtain ⟨k, ds⟩ := hd
    by_cases h : k = y <;> simp [conHasKey, h, ih]

omit [DecidableEq V] in
theorem conLookup_append_single (m : ConMap V) (v : Nat)
    (cs : List (Constraint V)) (y : Nat) :
    conLookup (m ++ [(v, cs)]) y =
      match conLookup m y with
      | some r => some r
      | none => if v = y then some cs else none := by
  induction m with
  | nil => simp [conLookup]
  | cons hd rest ih =>
    obtain ⟨k, ds⟩ := hd
    by_cases h : k = y <;> simp [conLookup, h, ih]

namespace CSPState

theorem addConLoop_hasKey (c : Constraint V) (L : List Nat) (m : ConMap V)
    (y : Nat) : conHasKey (addConLoop c m L).1 y = conHasKey m y := by
  induction L generalizing m with
  | nil => rfl
  | cons v rest ih =>
    by_cases h : conHasKey m v
    · rw [show addConLoop c m (v :: rest)
        = addConLoop c (conAppend m v c) rest from by simp [addConLoop, h]]
      rw [ih]
      exact conHasKey_conAppend m v c y
    · rw [show addConLoop c m (v :: rest) = (m, false) from by
        simp [addConLoop, h]]

theorem addConLoop_ok_iff (c : Constraint V) (L : List Nat) (m : ConMap V) :
    (addConLoop c m L).2 = true ↔ ∀ v ∈ L, conHasKey m v = true := by
  induction L generalizing m with
  | nil => simp [addConLoop]
  | cons v rest ih =>
    by_cases h : conHasKey m v
    · rw [show addConLoop c m (v :: rest)
        = addConLoop c (conAppend m v c) rest from by simp [addConLoop, h]]
      rw [ih]
      constructor
      · intro hall y hy
        rcases List.mem_cons.mp hy with rfl | hy'
        · exact h
        · have := hall y hy'
          rwa [conHasKey_conAppend] at this
      · intro hall y hy
        rw [conHasKey_conAppend]
        exact hall y (List.mem_cons_of_mem _ hy)
    · rw [show addConLoop c m (v :: rest) = (m, false) from by
        simp [addConLoop, h]]
      refine iff_of_false (by simp) ?_
      intro hall
      exact h (hall v (List.mem_cons_self _ _))

theorem addConLoop_mem (c : Constraint V) (L : List Nat) (m : ConMap V)
    (y : Nat) (d : Constraint V)
    (hok : ∀ v ∈ L, conHasKey m v = true) :
    d ∈ conLookupD (addConLoop c m L).1 y ↔
      (d ∈ conLookupD m y ∨ (d = c ∧ y ∈ L)) := by
  induction L generalizing m with
  | nil => simp [addConLoop]
  | cons v rest ih =>
    have hv := hok v (List.mem_cons_self _ _)
    rw [show addConLoop c m (v :: rest)
      = addConLoop c (conAppend m v c) rest from by simp [addConLoop, hv]]
    rw [ih (conAppend m v c) (fun y' hy' => by
      rw [conHasKey_conAppend]
      exact hok y' (List.mem_cons_of_mem _ hy'))]
    rw [mem_conLookupD_conAppend]
    simp only [List.mem_cons]
    constructor
    · rintro ((h | ⟨rfl, rfl, _⟩) | ⟨rfl, hy⟩)
      · exact Or.inl h
      · exact Or.inr ⟨rfl, Or.inl rfl⟩
      · exact Or.inr ⟨rfl, Or.inr hy⟩
    · rintro (h | ⟨rfl, (rfl | hy)⟩)
      · exact Or.inl (Or.inl h)
      · exact Or.inl (Or.inr ⟨rfl, rfl, hv⟩)
      · exact Or.inr ⟨rfl, hy⟩

end CSPState

omit [DecidableEq V] in
theorem invC_init (name : String) :
    InvC (CSPState.initCSP name : CSPState V) := by
  constructor
  · intro c hc
    simp [CSPState.initCSP] at hc
  · intro v hv
    simp [CSPState.initCSP, conHasKey] at hv

omit [DecidableEq V] in
theorem invC_add_var (s : CSPState V) (hs : InvC s) (v : Nat) :
    InvC (s.add_var v).1 := by
  unfold CSPState.add_var
  by_cases h : conHasKey s.vars_to_cons v
  · simpa [h] using hs
  · simp only [h, Bool.false_eq_true, if_false, if_neg]
    constructor
    · intro c hc x hx
      rw [conHasKey_append_single, hs.1 c hc x hx]
      rfl
    · intro y hy d
      simp only at hy ⊢
      rw [conHasKey_append_single] at hy
      by_cases hk : conHasKey s.vars_to_cons y = true
      · have hl : conLookupD (s.vars_to_cons ++ [(v, [])]) y
            = conLookupD s.vars_to_cons y := by
          unfold conLookupD
          rw [conLookup_append_single]
          rw [conHasKey_eq_isSome] at hk
          cases hc : conLookup s.vars_to_cons y with
          | none => rw [hc] at hk; exact absurd hk (by simp)
          | some r => rfl
        rw [hl]
        exact hs.2 y hk d
      · have hvy : v = y := by
          rcases Bool.or_eq_true_iff.mp hy with h1 | h1
          · exact absurd h1 hk
          · exact of_decide_eq_true h1
        have hln : conLookup s.vars_to_cons y = none := by
          rw [conHasKey_eq_isSome] at hk
          cases hc : conLookup s.vars_to_cons y with
          | none => rfl
          | some r => rw [hc] at hk; simp at hk
        have hl : conLookupD (s.vars_to_cons ++ [(v, [])]) y = [] := by
          unfold conLookupD
          rw [conLookup_append_single, hln, if_pos hvy]
          rfl
        rw [hl]
        constructor
        · intro hd
          cases hd
        · rintro ⟨hd, hdy⟩
          exact absurd (hs.1 d hd y hdy) (by simpa using hk)

theorem invC_add_constraint (s : CSPState V) (hs : InvC s)
    (c : Constraint V) (h : (s.add_constraint c).2 = none) :
    InvC (s.add_constraint c).1 := by
  rcases hloop : CSPState.addConLoop c s.vars_to_cons c.scope with ⟨m, ok⟩
  cases ok with
  | false =>
    unfold CSPState.add_constraint at h
    rw [hloop] at h
    simp at h
  | true =>
    have hall : ∀ v ∈ c.scope, conHasKey s.vars_to_cons v = true := by
      have hi := CSPState.addConLoop_ok_iff c c.scope s.vars_to_cons
      rw [hloop] at hi
      exact hi.mp rfl
    have hkeys : ∀ x, conHasKey m x = conHasKey s.vars_to_cons x := by
      intro x
      have hi := CSPState.addConLoop_hasKey c c.scope s.vars_to_cons x
      rw [hloop] at hi
      exact hi
    have hmem : ∀ y d, d ∈ conLookupD m y ↔
        (d ∈ conLookupD s.vars_to_cons y ∨ (d = c ∧ y ∈ c.scope)) := by
      intro y d
      have hi := CSPState.addConLoop_mem c c.scope s.vars_to_cons y d hall
      rw [hloop] at hi
      exact hi
    unfold CSPState.add_constraint
    rw [hloop]
    constructor
    · intro d hd x hx
      simp only at hd ⊢
      rw [hkeys x]
      rcases List.mem_append.mp hd with h' | h'
      · exact hs.1 d h' x hx
      · rw [List.mem_singleton.mp h'] at hx
        exact hall x hx
    · intro y hy d
      simp only at hy ⊢
      rw [hkeys y] at hy
      rw [hmem y d, hs.2 y hy d]
      constructor
      · rintro (⟨hin, hys⟩ | ⟨rfl, hys⟩)
        · exact ⟨List.mem_append.mpr (Or.inl hin), hys⟩
        · exact ⟨List.mem_append.mpr (Or.inr (List.mem_singleton.mpr rfl)), hys⟩
      · rintro ⟨hin, hys⟩
        rcases List.mem_append.mp hin with h' | h'
        · exact Or.inl ⟨h', hys⟩
        · rw [List.mem_singleton.mp h']
          rw [List.mem_singleton.mp h'] at hys
          exact Or.inr ⟨rfl, hys⟩

omit [DecidableEq V] in
theorem runOpsOk_nil (s : CSPState V) : runOpsOk s [] = (s, true) := rfl

omit [DecidableEq V] in
theorem runOpsOk_cons (s : CSPState V) (op : CSPOp V)
    (ops : List (CSPOp V)) :
    runOpsOk s (op :: ops) =
      ((runOpsOk (applyOp s op).1 ops).1,
        !(match op, (applyOp s op).2 with
          | CSPOp.addCon _, some _ => true
          | _, _ => false) && (runOpsOk (applyOp s op).1 ops).2) := rfl

theorem invC_runOpsOk (ops : List (CSPOp V)) (s0 : CSPState V)
    (hs : InvC s0) (s : CSPState V) (h : runOpsOk s0 ops = (s, true)) :
    InvC s := by
  induction ops generalizing s0 with
  | nil =>
    rw [runOpsOk_nil] at h
    injection h with h1 h2
    subst h1
    exact hs
  | cons op rest ih =>
    rw [runOpsOk_cons] at h
    rcases hr : runOpsOk (applyOp s0 op).1 rest with ⟨s2, ok2⟩
    rw [hr] at h
    injection h with h1 h2
    subst h1
    rw [Bool.and_eq_true] at h2
    obtain ⟨hb, hok2⟩ := h2
    subst hok2
    have hnext : InvC (applyOp s0 op).1 := by
      cases op with
      | addVar v => exact invC_add_var s0 hs v
      | addCon cc =>
        have hnone : (s0.add_constraint cc).2 = none := by
          cases he : (s0.add_constraint cc).2 with
          | none => rfl
          | some e =>
            have happ : (applyOp s0 (CSPOp.addCon cc)).2 = some e := he
            rw [happ] at hb
            simp at hb
        exact invC_add_constraint s0 hs cc hnone
    exact ih _ hnext hr

/-! ## Claims C5, C6 -/

/-- C5: `add_constraint` on a constraint whose scope contains an
unregistered variable fails with `UnknownVariableInScope` and leaves the
constraint list unchanged; on success the constraint is indexed under every
variable in its scope. -/
theorem c5_add_constraint_unknown_variable (s : CSPState V)
    (c : Constraint V) :
    ((∃ x ∈ c.scope, conHasKey s.vars_to_cons x = false) →
      (s.add_constraint c).2 = some CSPErr.UnknownVariableInScope ∧
      (s.add_constraint c).1.cons = s.cons) ∧
    ((∀ x ∈ c.scope, conHasKey s.vars_to_cons x = true) →
      (s.add_constraint c).2 = none ∧
      ∀ x ∈ c.scope, c ∈ (s.add_constraint c).1.get_cons_with_var x) := by
  constructor
  · rintro ⟨x, hx, hkey⟩
    have hnotok : (CSPState.addConLoop c s.vars_to_cons c.scope).2 = false := by
      cases hres : (CSPState.addConLoop c s.vars_to_cons c.scope).2 with
      | false => rfl
      | true =>
        have := (CSPState.addConLoop_ok_iff c c.scope s.vars_to_cons).mp
          hres x hx
        rw [hkey] at this
        cases this
    rcases hloop : CSPState.addConLoop c s.vars_to_cons c.scope with ⟨m, ok⟩
    rw [hloop] at hnotok
    simp only at hnotok
    subst hnotok
    unfold CSPState.add_constraint
    rw [hloop]
    exact ⟨rfl, rfl⟩
  · intro hall
    have hok := (CSPState.addConLoop_ok_iff c c.scope s.vars_to_cons).mpr hall
    rcases hloop : CSPState.addConLoop c s.vars_to_cons c.scope with ⟨m, ok⟩
    rw [hloop] at hok
    simp only at hok
    subst hok
    unfold CSPState.add_constraint
    rw [hloop]
    refine ⟨rfl, ?_⟩
    intro x hx
    have hm := CSPState.addConLoop_mem c c.scope s.vars_to_cons x c hall
    rw [hloop] at hm
    exact hm.mpr (Or.inr ⟨rfl, hx⟩)

/-- Witness for C5: a rejected call (unregistered scope variable 1) and a
successful call on a one-variable CSP. -/
theorem c5_witness :
    ((((CSPState.initCSP "p" : CSPState Nat).add_var 0).1.add_constraint
        (Constraint.mkConstraint "c" [0, 1])).2
      = some CSPErr.UnknownVariableInScope) ∧
    ((((CSPState.initCSP "p" : CSPState Nat).add_var 0).1.add_constraint
        (Constraint.mkConstraint "c" [0, 1])).1.cons
      = ((CSPState.initCSP "p" : CSPState Nat).add_var 0).1.cons) ∧
    ((((CSPState.initCSP "p" : CSPState Nat).add_var 0).1.add_constraint
        (Constraint.mkConstraint "d" [0])).2 = none) ∧
    Constraint.mkConstraint "d" [0] ∈
      (((CSPState.initCSP "p" : CSPState Nat).add_var 0).1.add_constraint
        (Constraint.mkConstraint "d" [0])).1.get_cons_with_var 0 :=
  ⟨((c5_add_constraint_unknown_variable _ _).1 ⟨1, by decide, by decide⟩).1,
   ((c5_add_constraint_unknown_variable _ _).1 ⟨1, by decide, by decide⟩).2,
   ((c5_add_constraint_unknown_variable _ _).2 (by decide)).1,
   ((c5_add_constraint_unknown_variable _ _).2 (by decide)).2 0 (by decide)⟩

/-- C6 counterexample: after `add_var 0` and a rejected
`add_constraint` whose scope is `[0, 1]` (variable 1 unregistered), the
index entry of the registered variable 0 contains the rejected constraint
although the constraint list does not — `get_cons_with_var` disagrees with
filtering `get_all_cons`. -/
theorem c6_counterexample :
    (conHasKey (runOps (CSPState.initCSP "csp" : CSPState Nat)
        [CSPOp.addVar 0,
         CSPOp.addCon (Constraint.mkConstraint "c" [0, 1])]).vars_to_cons 0
      = true) ∧
    Constraint.mkConstraint "c" [0, 1] ∈
      (runOps (CSPState.initCSP "csp" : CSPState Nat)
        [CSPOp.addVar 0,
         CSPOp.addCon (Constraint.mkConstraint "c" [0, 1])]).get_cons_with_var 0 ∧
    Constraint.mkConstraint "c" [0, 1] ∉
      (runOps (CSPState.initCSP "csp" : CSPState Nat)
        [CSPOp.addVar 0,
         CSPOp.addCon (Constraint.mkConstraint "c" [0, 1])]).get_all_cons := by
  decide

/-- C6 (amended): for a CSP built by a sequence of `add_var` and
`add_constraint` calls in which no `add_constraint` call was rejected,
`get_cons_with_var(v)` holds exactly the constraints of `get_all_cons()`
whose scope contains the registered variable `v`. -/
theorem c6_index_consistent_without_rejections (name : String)
    (ops : List (CSPOp V)) (s : CSPState V)
    (h : runOpsOk (CSPState.initCSP name) ops = (s, true)) :
    ∀ v, conHasKey s.vars_to_cons v = true →
      ∀ c, c ∈ s.get_cons_with_var v ↔ (c ∈ s.get_all_cons ∧ v ∈ c.scope) :=
  (invC_runOpsOk ops _ (invC_init name) s h).2

/-- Witness for the amended C6 theorem on a run of three successful
operations. -/
theorem c6_witness :
    Constraint.mkConstraint "c" [0, 1] ∈
      ((runOpsOk (CSPState.initCSP "p" : CSPState Nat)
        [CSPOp.addVar 0, CSPOp.addVar 1,
         CSPOp.addCon (Constraint.mkConstraint "c" [0, 1])]).1.get_cons_with_var 0) ↔
    (Constraint.mkConstraint "c" [0, 1] ∈
      (runOpsOk (CSPState.initCSP "p" : CSPState Nat)
        [CSPOp.addVar 0, CSPOp.addVar 1,
         CSPOp.addCon (Constraint.mkConstraint "c" [0, 1])]).1.get_all_cons ∧
      0 ∈ (Constraint.mkConstraint "c" [0, 1] : Constraint Nat).scope) :=
  c6_index_consistent_without_rejections "p"
    [CSPOp.addVar 0, CSPOp.addVar 1,
     CSPOp.addCon (Constraint.mkConstraint "c" [0, 1])]
    _ (by decide) 0 (by decide) (Constraint.mkConstraint "c" [0, 1])

/-! ## Claims C1, C4, C7 -/

/-- C1: for a `Constraint` populated by any sequence of
`add_satisfying_tuples` calls whose tuples match the scope arity, and for
any state of the scope variables' current domains and assignments,
`has_support(x, v)` returns true exactly when the brute-force scan of the
full tuple table finds a tuple assigning `v` to `x` whose every positional
value is still in the corresponding scope variable's current domain. -/
theorem c1_has_support_agrees_with_bruteforce (name : String)
    (scope : List Nat) (batches : List (List (List V)))
    (hgood : ∀ b ∈ batches, ∀ t ∈ b, t.length = scope.length)
    (store : Store V) (x : Nat) (v : V) :
    ((Constraint.mkConstraint name scope : Constraint V).addCalls
        batches).has_support store x v =
      some (Constraint.bruteForceHasSupport store
        ((Constraint.mkConstraint name scope : Constraint V).addCalls
          batches) x v) := by
  have h := Constraint.goodCon_addCalls (Constraint.mkConstraint name scope)
    batches (Constraint.goodCon_mk name scope) hgood
  exact Constraint.has_support_eq_bruteForce store _ h.1 x v

/-- Witness for C1 at a concrete constraint built by two calls, with a
store in which variable 1 has the value 2 pruned. -/
theorem c1_witness :
    ((Constraint.mkConstraint "c" [0, 1] : Constraint Nat).addCalls
        [[[1, 2]], [[1, 3]]]).has_support
      (fun _ => ⟨"u", [1, 2, 3], [true, false, true], none⟩) 0 1 =
    some (Constraint.bruteForceHasSupport
      (fun _ => ⟨"u", [1, 2, 3], [true, false, true], none⟩)
      ((Constraint.mkConstraint "c" [0, 1] : Constraint Nat).addCalls
        [[[1, 2]], [[1, 3]]]) 0 1) :=
  c1_has_support_agrees_with_bruteforce "c" [0, 1] [[[1, 2]], [[1, 3]]]
    (by decide) (fun _ => ⟨"u", [1, 2, 3], [true, false, true], none⟩) 0 1

/-- C4 counterexample: adding the already-present tuple `[1]` a second time
leaves the satisfying-tuple table unchanged but alters the support index (a
duplicate entry is appended), so the operation is not a no-op. -/
theorem c4_counterexample :
    ((((Constraint.mkConstraint "c" [0] : Constraint Nat).add_satisfying_tuples
          [[1]]).1.add_satisfying_tuples [[1]]).1.sat_tuples
      = (((Constraint.mkConstraint "c" [0] : Constraint Nat).add_satisfying_tuples
          [[1]]).1.sat_tuples)) ∧
    ¬
      ((((Constraint.mkConstraint "c" [0] : Constraint Nat).add_satisfying_tuples
            [[1]]).1.add_satisfying_tuples [[1]]).1.sup_tuples
        = (((Constraint.mkConstraint "c" [0] : Constraint Nat).add_satisfying_tuples
            [[1]]).1.sup_tuples)) := by
  decide

/-- C4 (amended): re-adding a tuple already present in a `Constraint`
populated by arity-respecting `add_satisfying_tuples` calls leaves the
satisfying-tuple table unchanged (the support index gains duplicate
entries), and the results of `check` and `has_support` are unchanged for
all inputs. -/
theorem c4_duplicate_add_observably_idempotent (name : String)
    (scope : List Nat) (batches : List (List (List V))) (t : List V)
    (hgood : ∀ b ∈ batches, ∀ t' ∈ b, t'.length = scope.length)
    (ht : t ∈ ((Constraint.mkConstraint name scope : Constraint V).addCalls
      batches).sat_tuples) :
    ((((Constraint.mkConstraint name scope : Constraint V).addCalls
        batches).add_satisfying_tuples [t]).1.sat_tuples
      = ((Constraint.mkConstraint name scope : Constraint V).addCalls
        batches).sat_tuples) ∧
    (∀ vals,
      ((((Constraint.mkConstraint name scope : Constraint V).addCalls
          batches).add_satisfying_tuples [t]).1.check vals
        = ((Constraint.mkConstraint name scope : Constraint V).addCalls
          batches).check vals)) ∧
    (∀ (store : Store V) (x : Nat) (v : V),
      ((((Constraint.mkConstraint name scope : Constraint V).addCalls
          batches).add_satisfying_tuples [t]).1.has_support store x v
        = ((Constraint.mkConstraint name scope : Constraint V).addCalls
          batches).has_support store x v)) := by
  have hgc := Constraint.goodCon_addCalls
    (Constraint.mkConstraint name scope) batches
    (Constraint.goodCon_mk name scope) hgood
  have htl : t.length =
      ((Constraint.mkConstraint name scope : Constraint V).addCalls
        batches).scope.length := hgc.1.1 t ht
  have hone : ((Constraint.mkConstraint name scope : Constraint V).addCalls
        batches).add_satisfying_tuples [t]
      = ((Constraint.mkConstraint name scope : Constraint V).addCalls
        batches).addTuple t :=
    Constraint.add_satisfying_tuples_single _ t
  have hsat : (((Constraint.mkConstraint name scope : Constraint V).addCalls
        batches).addTuple t).1.sat_tuples
      = ((Constraint.mkConstraint name scope : Constraint V).addCalls
        batches).sat_tuples := by
    rw [Constraint.addTuple_sat, if_pos ht]
  refine ⟨by rw [hone]; exact hsat, ?_, ?_⟩
  · intro vals
    rw [hone]
    unfold Constraint.check
    rw [hsat]
  · intro store x v
    have hG2 := Constraint.addTuple_goodCon _ t hgc.1 htl
    rw [hone]
    rw [Constraint.has_support_eq_bruteForce store _ hG2 x v,
      Constraint.has_support_eq_bruteForce store _ hgc.1 x v]
    congr 1
    unfold Constraint.bruteForceHasSupport Constraint.validB
    rw [Constraint.addTuple_scope, hsat]

/-- Witness for the amended C4 theorem at a concrete constraint. -/
theorem c4_witness :
    ((((Constraint.mkConstraint "c" [0] : Constraint Nat).addCalls
        [[[1]]]).add_satisfying_tuples [[1]]).1.sat_tuples
      = ((Constraint.mkConstraint "c" [0] : Constraint Nat).addCalls
        [[[1]]]).sat_tuples) :=
  (c4_duplicate_add_observably_idempotent "c" [0] [[[1]]] [1]
    (by decide) (by decide)).1

/-- C7 counterexample: a tuple shorter than the scope is accepted without
any failure and stored in the satisfying-tuple table, so tuples of length
different from the scope length are not rejected with
`ScopeArityMismatch`. -/
theorem c7_counterexample :
    (((Constraint.mkConstraint "c" [0, 1] : Constraint Nat).add_satisfying_tuples
        [[5]]).2 = none) ∧
    [5] ∈ ((Constraint.mkConstraint "c" [0, 1] : Constraint Nat).add_satisfying_tuples
        [[5]]).1.sat_tuples ∧
    ¬([5] : List Nat).length = ([0, 1] : List Nat).length := by
  decide

/-- C7 (amended): `add_satisfying_tuples` performs no arity check — a tuple
no longer than the scope is accepted without error, a tuple longer than the
scope is stored and then aborts with a raw index fault (not
`ScopeArityMismatch`), and in either case the tuple ends up in the
satisfying-tuple table, so stored tuples may have length different from the
scope length. -/
theorem c7_no_arity_check (c : Constraint V) (t : List V) :
    (t.length ≤ c.scope.length →
      (c.add_satisfying_tuples [t]).2 = none) ∧
    (c.scope.length < t.length →
      (c.add_satisfying_tuples [t]).2 = some CSPErr.IndexError) ∧
    t ∈ (c.add_satisfying_tuples [t]).1.sat_tuples := by
  rw [Constraint.add_satisfying_tuples_single]
  refine ⟨Constraint.addTuple_ok c t, ?_, ?_⟩
  · intro hlt
    rw [Constraint.addTuple_err]
    apply Constraint.addSups_err
    have hsome : t.get? c.scope.length =
        some (t.get ⟨c.scope.length, hlt⟩) := List.get?_eq_get hlt
    refine ⟨(c.scope.length, t.get ⟨c.scope.length, hlt⟩),
      mem_enumList_zero.mpr hsome, ?_⟩
    exact List.get?_eq_none.mpr le_rfl
  · exact (Constraint.addTuple_mem_sat_iff c t t).mpr (Or.inr rfl)

/-- Witness for the amended C7 theorem: a short tuple is accepted silently
and a long tuple signals the raw index fault; both end up stored. -/
theorem c7_witness :
    (((Constraint.mkConstraint "c" [0, 1] : Constraint Nat).add_satisfying_tuples
        [[5]]).2 = none) ∧
    (((Constraint.mkConstraint "c" [0, 1] : Constraint Nat).add_satisfying_tuples
        [[7, 8, 9]]).2 = some CSPErr.IndexError) ∧
    [5] ∈ ((Constraint.mkConstraint "c" [0, 1] : Constraint Nat).add_satisfying_tuples
        [[5]]).1.sat_tuples :=
  ⟨(c7_no_arity_check (Constraint.mkConstraint "c" [0, 1]) [5]).1 (by decide),
   (c7_no_arity_check (Constraint.mkConstraint "c" [0, 1]) [7, 8, 9]).2.1
     (by decide),
   (c7_no_arity_check (Constraint.mkConstraint "c" [0, 1]) [5]).2.2⟩

/-! ## Claims C3, C8, C9, C10 -/

/-- C9 (amended): for a `Variable` whose permanent domain is free of
duplicate values and whose assigned value (when present) lies in the
permanent domain, `in_cur_domain(v)` is true exactly when `v` is a member
of the list returned by `cur_domain()`. -/
theorem c9_in_cur_domain_mirrors_cur_domain (v : Variable V)
    (hnd : v.dom.Nodup)
    (ha : ∀ a, v.assignedValue = some a → a ∈ v.dom) (val : V) :
    v.in_cur_domain val = true ↔ val ∈ v.cur_domain := by
  unfold Variable.in_cur_domain Variable.cur_domain
  cases hv : v.assignedValue with
  | some a =>
    by_cases hd : val ∈ v.dom
    · simp [hd]
    · simp only [if_neg hd, List.mem_singleton]
      constructor
      · intro h
        cases h
      · rintro rfl
        exact absurd (ha val hv) hd
  | none =>
    by_cases hd : val ∈ v.dom
    · have hvi : ∃ i, Variable.value_index v.dom val = some i := by
        cases h : Variable.value_index v.dom val with
        | none => exact absurd ((Variable.value_index_eq_none_iff _ _).mp h) (by simp [hd])
        | some i => exact ⟨i, rfl⟩
      obtain ⟨i, hi⟩ := hvi
      simp only [if_pos hd, hi, Variable.mem_curFilter]
      constructor
      · intro h
        rw [List.getD_eq_getElem?_getD, ← List.get?_eq_getElem?] at h
        refine ⟨i, Variable.value_index_get? _ _ _ hi, ?_⟩
        cases hg : v.curdom.get? i with
        | none => rw [hg] at h; exact absurd h (by simp)
        | some b =>
          rw [hg] at h
          simp only [Option.getD_some] at h
          rw [h]
      · rintro ⟨j, h1, h2⟩
        have hvj := Variable.value_index_of_get? hnd h1
        rw [hi] at hvj
        injection hvj with hij
        subst hij
        rw [List.getD_eq_getElem?_getD, ← List.get?_eq_getElem?, h2]
        rfl
    · simp only [if_neg hd, Variable.mem_curFilter]
      constructor
      · intro h
        cases h
      · rintro ⟨i, h1, _⟩
        exact absurd (List.get?_mem h1) hd

/-- C9 counterexample: with the duplicate domain `[1, 1]` and the first
copy pruned, `in_cur_domain 1` is false although `1` is in the list
returned by `cur_domain()` — the claim fails for reachable states with
duplicate domain values. -/
theorem c9_counterexample :
    (((Variable.mkVar "x" [1, 1] : Variable Nat).prune_value 1).1.in_cur_domain 1
      = false) ∧
    1 ∈ ((Variable.mkVar "x" [1, 1] : Variable Nat).prune_value 1).1.cur_domain := by
  decide

/-- Witness for the amended C9 theorem at a concrete duplicate-free
variable. -/
theorem c9_witness :
    (⟨"y", [1, 2], [true, true], none⟩ : Variable Nat).in_cur_domain 2 = true ↔
      2 ∈ (⟨"y", [1, 2], [true, true], none⟩ : Variable Nat).cur_domain :=
  c9_in_cur_domain_mirrors_cur_domain _ (by decide) (by intro a h; simp at h) 2

/-- C10: `in_cur_domain` is total on out-of-domain inputs — for a value
never added to the permanent domain it returns `false` (no error signal in
its type), whatever the assignment state. -/
theorem c10_in_cur_domain_total (v : Variable V) (val : V)
    (h : val ∉ v.dom) : v.in_cur_domain val = false := by
  unfold Variable.in_cur_domain
  simp [h]

/-- Witness for C10 at a concrete out-of-domain value (one assigned and one
unassigned variable). -/
theorem c10_witness :
    (⟨"w", [1, 2], [true, false], some 1⟩ : Variable Nat).in_cur_domain 5 = false ∧
    (⟨"w", [1, 2], [true, false], none⟩ : Variable Nat).in_cur_domain 5 = false :=
  ⟨c10_in_cur_domain_total _ 5 (by decide), c10_in_cur_domain_total _ 5 (by decide)⟩

/-- C3 (amended): for an unassigned `Variable` and a value accepted by
`in_cur_domain`, `assign` succeeds setting only the assignment field, the
current domain collapses to the assigned value, and the subsequent
`unassign` restores the variable exactly — the mask is never altered, and
`cur_domain()` afterwards is again the mask-filtered domain from before. -/
theorem c3_assign_unassign_frame (v : Variable V) (val : V)
    (hun : v.assignedValue = none) (hval : v.in_cur_domain val = true) :
    (v.assign val).2 = none ∧
    (v.assign val).1.get_assigned_value = some val ∧
    (v.assign val).1.cur_domain = [val] ∧
    (v.assign val).1.curdom = v.curdom ∧
    ((v.assign val).1.unassign).1 = v ∧
    ((v.assign val).1.unassign).1.cur_domain
      = Variable.curFilter v.dom v.curdom := by
  have hg : (v.is_assigned || !(v.in_cur_domain val)) = false := by
    simp [Variable.is_assigned, hun, hval]
  obtain ⟨n, d, cd, av⟩ := v
  simp only at hun
  subst hun
  simp [Variable.assign, Variable.unassign, Variable.is_assigned,
    Variable.get_assigned_value, Variable.cur_domain] at hg ⊢
  simp [hg]

/-- C3 counterexample: with the duplicate domain `[1, 1]` and the first
copy pruned, `1` is in the current-domain list of the unassigned variable,
yet `assign(1)` is rejected and the assigned value does not become `1`. -/
theorem c3_counterexample :
    (((Variable.mkVar "x" [1, 1] : Variable Nat).prune_value 1).1.assignedValue
      = none) ∧
    1 ∈ ((Variable.mkVar "x" [1, 1] : Variable Nat).prune_value 1).1.cur_domain ∧
    ¬
      ((((Variable.mkVar "x" [1, 1] : Variable Nat).prune_value 1).1.assign 1).1.get_assigned_value
        = some 1) := by
  decide

/-- Witness for the amended C3 theorem at a concrete variable. -/
theorem c3_witness :
    (((Variable.mkVar "z" [3, 4] : Variable Nat).assign 3).1.unassign).1
      = Variable.mkVar "z" [3, 4] :=
  (c3_assign_unassign_frame (Variable.mkVar "z" [3, 4]) 3 rfl (by decide)).2.2.2.2.1

/-- C8: the mutating `Variable` operations signal their error kinds and
leave the state unchanged on failure: `assign` on an assigned variable or a
value failing `in_cur_domain`, `unassign` on an unassigned variable,
`prune_value`/`unprune_value` on a value outside the permanent domain. -/
theorem c8_variable_error_kinds (v : Variable V) (val : V) :
    ((v.is_assigned = true ∨ v.in_cur_domain val = false) →
      v.assign val = (v, some CSPErr.InvalidAssignment)) ∧
    (v.is_assigned = false →
      v.unassign = (v, some CSPErr.InvalidUnassignment)) ∧
    (val ∉ v.dom →
      v.prune_value val = (v, some CSPErr.ValueNotInDomain)) ∧
    (val ∉ v.dom →
      v.unprune_value val = (v, some CSPErr.ValueNotInDomain)) := by
  refine ⟨?_, ?_, ?_, ?_⟩
  · intro h
    have : (v.is_assigned || !(v.in_cur_domain val)) = true := by
      rcases h with h | h <;> simp [h]
    simp [Variable.assign, this]
  · intro h
    simp [Variable.unassign, h]
  · intro h
    have := (Variable.value_index_eq_none_iff v.dom val).mpr h
    simp [Variable.prune_value, this]
  · intro h
    have := (Variable.value_index_eq_none_iff v.dom val).mpr h
    simp [Variable.unprune_value, this]

/-- Witness for C8 at concrete failing calls. -/
theorem c8_witness :
    (⟨"w", [1], [true], some 1⟩ : Variable Nat).assign 1
      = (⟨"w", [1], [true], some 1⟩, some CSPErr.InvalidAssignment) ∧
    (⟨"w", [1], [true], none⟩ : Variable Nat).unassign
      = (⟨"w", [1], [true], none⟩, some CSPErr.InvalidUnassignment) ∧
    (⟨"w", [1], [true], none⟩ : Variable Nat).prune_value 5
      = (⟨"w", [1], [true], none⟩, some CSPErr.ValueNotInDomain) ∧
    (⟨"w", [1], [true], none⟩ : Variable Nat).unprune_value 5
      = (⟨"w", [1], [true], none⟩, some CSPErr.ValueNotInDomain) :=
  ⟨(c8_variable_error_kinds _ 1).1 (Or.inl (by decide)),
   (c8_variable_error_kinds (⟨"w", [1], [true], none⟩ : Variable Nat) 1).2.1 (by decide),
   (c8_variable_error_kinds _ 5).2.2.1 (by decide),
   (c8_variable_error_kinds _ 5).2.2.2 (by decide)⟩

end TileCSP
